import Mathlib

/-!
Verification of the term-reconciliation procedure of the lamin-examples
repository (the `records_names` loop and the unmapped high-hierarchy-terms
loop of the CellTypist notebook), shallowly embedded in Lean.

The embedding follows the notebook source:
- `public_records_dict` is a Python dict keyed by `ontology_id`; it is
  modelled as an association list with insert-overwrite semantics.
- `records_names` is a Python dict keyed by the external label; assignments
  overwrite in place, keeping the original insertion position.
- `processRow` is the body of the `for _, row in celltypist_df.iterrows()`
  loop; the Python expression `public_records_dict[ontology_id]` raises
  `KeyError` when the key is absent, modelled with `Except`.
- Python `str.lower` is modelled by `lowerStr` (character-wise
  `Char.toLower`, which agrees with Python on the ASCII range used here)
  and `str.rstrip "s"` by `rstripS`, which removes every trailing letter s.
- `add_synonym` is a method of the external LaminDB framework, not part of
  this repository; it is modelled from the spec.
-/

namespace Recon

/-- OntologyTerm as in the spec data model: a cell-type record.  The
LaminDB record stores synonyms as a pipe-separated string or `None`; this
embedding uses the split list, with `[]` standing for `None` (the two are
observationally equal in the loop: the `is not None` guard followed by
`any` over the split behaves like `any` over the empty list). -/
structure OntologyTerm where
  name : String
  ontology_id : Option String
  description : Option String
  synonyms : List String
deriving DecidableEq

/-- ExternalRecord: one row of the CellTypist table entering the
`records_names` loop.  Every row processed by that loop carries a
non-null ontology id; the high-hierarchy terms without an id are bare
labels handled by the separate unmapped loop (`runUnmapped`). -/
structure ExternalRecord where
  label : String
  ontology_id : String
  description : Option String
deriving DecidableEq

/-- Result entry: either a borrowed reference to a canonical record of the
public-records dict (Python stores the object reference, so later
synonym mutations are visible through it), or an owned newly created
record. -/
inductive Entry where
  | canonical (oid : String)
  | created (t : OntologyTerm)
deriving DecidableEq

/-- The one failure of the loop: `public_records_dict[ontology_id]` raises
Python `KeyError` when the id is absent from the dict. -/
inductive ReconcileError where
  | keyError (oid : String)
deriving DecidableEq

/-- Python `str.lower`, character by character (agrees with Python on the
ASCII labels this notebook handles). -/
def lowerStr (s : String) : String :=
  String.mk (s.data.map Char.toLower)

/-- Python `str.rstrip "s"`: remove every trailing character `s`.  In the
notebook it is always applied after `.lower()`, so only lowercase letter s
needs stripping. -/
def rstripS (s : String) : String :=
  String.mk ((s.data.reverse.dropWhile (fun c => c = 's')).reverse)

/-- Modelled from the spec: `add_synonym` is provided by the external
LaminDB framework and its code is not part of this repository.  The spec
says synonym attachment is append-only with no duplicates, so adding an
already-present synonym is a no-op. -/
def add_synonym (t : OntologyTerm) (s : String) : OntologyTerm :=
  if s ∈ t.synonyms then t else { t with synonyms := t.synonyms ++ [s] }

/-- Lookup in a Python dict modelled as an association list (keys are kept
unique by the insert operation, so first match is the match). -/
def alistFind {α : Type} (m : List (String × α)) (k : String) : Option α :=
  (m.find? (fun p => p.1 = k)).map Prod.snd

/-- Overwrite the value stored at a key, keeping its position (Python dict
assignment for a present key). -/
def alistUpdate {α : Type} (m : List (String × α)) (k : String) (v : α) :
    List (String × α) :=
  m.map (fun p => if p.1 = k then (k, v) else p)

/-- Python dict assignment `m[k] = v`: overwrite in place when the key is
present, append otherwise. -/
def alistInsert {α : Type} (m : List (String × α)) (k : String) (v : α) :
    List (String × α) :=
  if m.any (fun p => p.1 = k) then alistUpdate m k v else m ++ [(k, v)]

/-- The canonical store: `public_records_dict`, a dict from ontology id to
the public ontology record. -/
abbrev Dict := List (String × OntologyTerm)

/-- Construction of `public_records_dict = {r.ontology_id: r for r in
public_records}` (all records returned by `from_values` over the id column
carry an ontology id; records without one would not be keyed). -/
def public_records_dict (public_records : List OntologyTerm) : Dict :=
  public_records.foldl
    (fun d r =>
      match r.ontology_id with
      | some oid => alistInsert d oid r
      | none => d)
    []

/-- Body of the `records_names` loop for one row.  Mirrors the notebook:
exact case-insensitive name match uses the public record as is; a match of
the rstrip-s form attaches the label as a synonym; a case-insensitive
match of the label or its stripped form against any existing synonym also
attaches the label as a synonym; otherwise a record is created from the
CellTypist metadata alone.  The `ontology_id` dict access raises
`KeyError` when the id is absent. -/
def processRow (d : Dict) (row : ExternalRecord) :
    Except ReconcileError (Dict × Entry) :=
  match alistFind d row.ontology_id with
  | none => .error (.keyError row.ontology_id)
  | some public_record =>
    if lowerStr row.label = lowerStr public_record.name then
      .ok (d, .canonical row.ontology_id)
    else if rstripS (lowerStr row.label) = lowerStr public_record.name then
      .ok (alistUpdate d row.ontology_id (add_synonym public_record row.label),
           .canonical row.ontology_id)
    else if ∃ i ∈ public_record.synonyms,
        lowerStr i = lowerStr row.label ∨
        lowerStr i = rstripS (lowerStr row.label) then
      .ok (alistUpdate d row.ontology_id (add_synonym public_record row.label),
           .canonical row.ontology_id)
    else
      .ok (d, .created { name := row.label, ontology_id := some row.ontology_id,
                         description := row.description, synonyms := [] })

/-- The reconciliation state: the mutable canonical store, the
`records_names` dict, and the log of records saved to the external store
(`record.save()` calls) during reconciliation. -/
structure ReconcileResult where
  store : Dict
  names : List (String × Entry)
  saves : List OntologyTerm
deriving DecidableEq

/-- The `records_names` loop over the CellTypist rows. -/
def runRows : List ExternalRecord → ReconcileResult →
    Except ReconcileError ReconcileResult
  | [], st => .ok st
  | row :: rest, st =>
    match processRow st.store row with
    | .error e => .error e
    | .ok (d', entry) =>
      runRows rest
        { store := d'
          names := alistInsert st.names row.label entry
          saves := st.saves }

/-- The record built for one unmapped high-hierarchy term: the notebook
accepts the fuzzy-search candidate only for the label T cells (fetching
the public T cell record through `from_bionty`, an external capability
passed in as `fetch`) and creates a bare record from the name alone for
every other label. -/
def unmappedTerm (fetch : String → OntologyTerm) (name : String) :
    OntologyTerm :=
  if name = "T cells" then add_synonym (fetch "T cell") name
  else { name := name, ontology_id := none, description := none, synonyms := [] }

/-- The `high_terms_umapped` loop: each term is built, immediately saved
(`record.save()` inside the loop), and entered into `records_names`. -/
def runUnmapped (fetch : String → OntologyTerm) :
    List String → ReconcileResult → ReconcileResult
  | [], st => st
  | name :: rest, st =>
    runUnmapped fetch rest
      { store := st.store
        names := alistInsert st.names name (.created (unmappedTerm fetch name))
        saves := st.saves ++ [unmappedTerm fetch name] }

/-- The whole reconciliation: the `records_names` loop over the rows with
ontology ids, then the unmapped-terms loop over the bare high-hierarchy
labels. -/
def reconcile (rows : List ExternalRecord) (unames : List String)
    (fetch : String → OntologyTerm) (d : Dict) :
    Except ReconcileError ReconcileResult :=
  match runRows rows { store := d, names := [], saves := [] } with
  | .error e => .error e
  | .ok st => .ok (runUnmapped fetch unames st)

/-- Resolution of a result entry to the record it denotes: canonical
entries are references into the final store, created entries carry their
record. -/
def resolveEntry (store : Dict) : Entry → Option OntologyTerm
  | .canonical oid => alistFind store oid
  | .created t => some t

/-- The matching relation the loop implements for one record against one
public record: exact lowercase name equality, stripped-form name equality,
or a synonym hit of the label or its stripped form.  Used to state the
reconciliation invariants. -/
def TermMatchesP (rec : OntologyTerm) (label : String) : Prop :=
  lowerStr label = lowerStr rec.name ∨
  rstripS (lowerStr label) = lowerStr rec.name ∨
  ∃ i ∈ rec.synonyms,
    lowerStr i = lowerStr label ∨ lowerStr i = rstripS (lowerStr label)

/-- Fetch capability returning a fixed empty record, used to instantiate
`reconcile` on inputs whose unmapped loop never accepts a fuzzy candidate. -/
def trivialFetch : String → OntologyTerm :=
  fun _ => { name := "", ontology_id := none, description := none, synonyms := [] }

/-- The canonical store `d` evolved from `d0` by the reconciliation loop:
keys, names, ids and descriptions are untouched, and every synonym the
loop appended is a label that already matched the original record.  This
is the invariant behind idempotence. -/
def DictLE (d0 d : Dict) : Prop :=
  d0.map Prod.fst = d.map Prod.fst ∧
  ∀ k r0 r, alistFind d0 k = some r0 → alistFind d k = some r →
    r.name = r0.name ∧ r.ontology_id = r0.ontology_id ∧
    r.description = r0.description ∧
    ∃ added, r.synonyms = r0.synonyms ++ added ∧ ∀ L ∈ added, TermMatchesP r0 L

/-- Monotone growth of the store along the loop: keys and scalar fields
are unchanged and synonym lists only gain members. -/
def SynGrow (d1 d2 : Dict) : Prop :=
  d1.map Prod.fst = d2.map Prod.fst ∧
  ∀ k r1 r2, alistFind d1 k = some r1 → alistFind d2 k = some r2 →
    r1.name = r2.name ∧ r1.ontology_id = r2.ontology_id ∧
    r1.description = r2.description ∧ ∀ s ∈ r1.synonyms, s ∈ r2.synonyms

/-- Well-formedness of the canonical store: every record sits under its
own ontology id, as `public_records_dict` builds it. -/
def StoreWF (d : Dict) : Prop := ∀ p ∈ d, p.2.ontology_id = some p.1

/-- The spec scenario input rows: the CellTypist labels "T cells" and
"T cell", both carrying the Cell Ontology id CL:0000084. -/
def tCellsScenarioRows : List ExternalRecord :=
  [{ label := "T cells", ontology_id := "CL:0000084", description := none },
   { label := "T cell", ontology_id := "CL:0000084", description := none }]

/-- The spec scenario canonical store: one public record, CL:0000084
named "T cell" with no synonyms. -/
def tCellsScenarioDict : Dict :=
  [("CL:0000084",
    { name := "T cell", ontology_id := some "CL:0000084",
      description := none, synonyms := [] })]

/-- The reconciliation outcome of the spec scenario: both labels map to
the canonical CL:0000084 term, whose synonyms now hold "T cells". -/
def tCellsScenarioResult : ReconcileResult :=
  { store := [("CL:0000084",
      { name := "T cell", ontology_id := some "CL:0000084",
        description := none, synonyms := ["T cells"] })],
    names := [("T cells", .canonical "CL:0000084"),
              ("T cell", .canonical "CL:0000084")],
    saves := [] }

/-- Decidable equality on reconciliation outcomes, so witnesses can be
checked by evaluation. -/
instance {ε α : Type} [DecidableEq ε] [DecidableEq α] :
    DecidableEq (Except ε α) := fun a b =>
  match a, b with
  | .error e, .error f =>
    if h : e = f then isTrue (congrArg Except.error h)
    else isFalse (fun hc => h (Except.error.inj hc))
  | .ok x, .ok y =>
    if h : x = y then isTrue (congrArg Except.ok h)
    else isFalse (fun hc => h (Except.ok.inj hc))
  | .error _, .ok _ => isFalse (fun hc => Except.noConfusion hc)
  | .ok _, .error _ => isFalse (fun hc => Except.noConfusion hc)

section AListLemmas

variable {α : Type}

lemma alistFind_cons (p : String × α) (m : List (String × α)) (k : String) :
    alistFind (p :: m) k = if p.1 = k then some p.2 else alistFind m k := by
  by_cases h : p.1 = k <;> simp [alistFind, List.find?_cons, h]

lemma alistUpdate_cons (p : String × α) (m : List (String × α)) (k : String)
    (v : α) :
    alistUpdate (p :: m) k v =
      (if p.1 = k then (k, v) else p) :: alistUpdate m k v := rfl

lemma alistUpdate_keys (m : List (String × α)) (k : String) (v : α) :
    (alistUpdate m k v).map Prod.fst = m.map Prod.fst := by
  induction m with
  | nil => rfl
  | cons p rest ih =>
    by_cases h : p.1 = k <;> simp [alistUpdate_cons, h, ih]

lemma alistFind_eq_none_iff (m : List (String × α)) (k : String) :
    alistFind m k = none ↔ k ∉ m.map Prod.fst := by
  induction m with
  | nil => simp [alistFind]
  | cons p rest ih =>
    rw [alistFind_cons]
    by_cases h : p.1 = k
    · rw [if_pos h]
      simp only [List.map_cons, List.mem_cons]
      constructor
      · intro hc; cases hc
      · intro hnot; exact absurd (Or.inl h.symm) hnot
    · rw [if_neg h]
      simp only [List.map_cons, List.mem_cons, ih]
      constructor
      · intro hk hc
        cases hc with
        | inl hh => exact h hh.symm
        | inr hh => exact hk hh
      · intro hk hc; exact hk (Or.inr hc)

lemma alistFind_mem {m : List (String × α)} {k : String} {v : α}
    (h : alistFind m k = some v) : (k, v) ∈ m := by
  induction m with
  | nil => simp [alistFind] at h
  | cons p rest ih =>
    rw [alistFind_cons] at h
    by_cases hp : p.1 = k
    · rw [if_pos hp] at h
      obtain ⟨p1, p2⟩ := p
      injection h with h2
      simp only at hp
      subst hp
      subst h2
      exact List.mem_cons_self _ _
    · rw [if_neg hp] at h
      exact List.mem_cons_of_mem _ (ih h)

lemma alistFind_isSome_iff (m : List (String × α)) (k : String) :
    (alistFind m k).isSome ↔ k ∈ m.map Prod.fst := by
  constructor
  · intro hs
    obtain ⟨v, hv⟩ := Option.isSome_iff_exists.mp hs
    exact List.mem_map.mpr ⟨(k, v), alistFind_mem hv, rfl⟩
  · intro hmem
    cases hf : alistFind m k with
    | some v => rfl
    | none => exact absurd hmem ((alistFind_eq_none_iff m k).mp hf)

lemma alistFind_update_self {m : List (String × α)} {k : String} {r : α}
    (v : α) (h : alistFind m k = some r) :
    alistFind (alistUpdate m k v) k = some v := by
  induction m with
  | nil => simp [alistFind] at h
  | cons p rest ih =>
    rw [alistFind_cons] at h
    by_cases hp : p.1 = k
    · simp [alistUpdate_cons, hp, alistFind_cons]
    · rw [if_neg hp] at h
      simp [alistUpdate_cons, hp, alistFind_cons, ih h]

lemma alistFind_update_ne {k' k : String} (m : List (String × α)) (v : α)
    (h : k' ≠ k) :
    alistFind (alistUpdate m k v) k' = alistFind m k' := by
  induction m with
  | nil => rfl
  | cons p rest ih =>
    rw [alistUpdate_cons, alistFind_cons, alistFind_cons]
    by_cases hp : p.1 = k
    · have h1 : ((k, v) : String × α).1 ≠ k' := fun hc => h hc.symm
      have h2 : ¬ p.1 = k' := by rw [hp]; exact fun hc => h hc.symm
      rw [if_pos hp, if_neg h1, if_neg h2, ih]
    · rw [if_neg hp]
      by_cases hp' : p.1 = k'
      · rw [if_pos hp', if_pos hp']
      · rw [if_neg hp', if_neg hp', ih]

lemma alistUpdate_of_not_mem {m : List (String × α)} {k : String} (v : α)
    (h : k ∉ m.map Prod.fst) : alistUpdate m k v = m := by
  induction m with
  | nil => rfl
  | cons p rest ih =>
    simp only [List.map_cons, List.mem_cons] at h
    push_neg at h
    rw [alistUpdate_cons, if_neg (fun hc => h.1 hc.symm), ih h.2]

lemma alistUpdate_self {m : List (String × α)} {k : String} {v : α}
    (hnd : (m.map Prod.fst).Nodup) (h : alistFind m k = some v) :
    alistUpdate m k v = m := by
  induction m with
  | nil => rfl
  | cons p rest ih =>
    rw [alistFind_cons] at h
    simp only [List.map_cons, List.nodup_cons] at hnd
    by_cases hp : p.1 = k
    · rw [if_pos hp] at h
      have hrest : k ∉ rest.map Prod.fst := by rw [← hp]; exact hnd.1
      rw [alistUpdate_cons, if_pos hp, alistUpdate_of_not_mem _ hrest]
      obtain ⟨p1, p2⟩ := p
      injection h with h2
      simp only at hp
      subst hp
      subst h2
      rfl
    · rw [if_neg hp] at h
      rw [alistUpdate_cons, if_neg hp, ih hnd.2 h]

lemma alistFind_append_of_none {m1 : List (String × α)}
    (m2 : List (String × α)) (k : String) (h : alistFind m1 k = none) :
    alistFind (m1 ++ m2) k = alistFind m2 k := by
  induction m1 with
  | nil => rfl
  | cons p rest ih =>
    rw [alistFind_cons] at h
    by_cases hp : p.1 = k
    · rw [if_pos hp] at h; cases h
    · rw [if_neg hp] at h
      rw [List.cons_append, alistFind_cons, if_neg hp, ih h]

lemma alistFind_append_of_some {m1 : List (String × α)} {k : String} {v : α}
    (m2 : List (String × α)) (h : alistFind m1 k = some v) :
    alistFind (m1 ++ m2) k = some v := by
  induction m1 with
  | nil => simp [alistFind] at h
  | cons p rest ih =>
    rw [alistFind_cons] at h
    by_cases hp : p.1 = k
    · rw [if_pos hp] at h
      rw [List.cons_append, alistFind_cons, if_pos hp]
      exact h
    · rw [if_neg hp] at h
      rw [List.cons_append, alistFind_cons, if_neg hp, ih h]

lemma alist_any_iff_mem_keys (m : List (String × α)) (k : String) :
    m.any (fun p => p.1 = k) = true ↔ k ∈ m.map Prod.fst := by
  simp only [List.any_eq_true, decide_eq_true_eq, List.mem_map]

lemma alistInsert_keys_nodup {m : List (String × α)} (k : String) (v : α)
    (h : (m.map Prod.fst).Nodup) :
    ((alistInsert m k v).map Prod.fst).Nodup := by
  unfold alistInsert
  by_cases hany : m.any (fun p => p.1 = k) = true
  · rw [if_pos hany, alistUpdate_keys]; exact h
  · rw [if_neg hany]
    simp only [List.map_append, List.map_cons, List.map_nil]
    rw [List.nodup_append]
    refine ⟨h, List.nodup_singleton k, ?_⟩
    intro x hx hk
    simp only [List.mem_singleton] at hk
    subst hk
    exact hany ((alist_any_iff_mem_keys m x).mpr hx)

lemma alistFind_insert_self (m : List (String × α)) (k : String) (v : α) :
    alistFind (alistInsert m k v) k = some v := by
  unfold alistInsert
  by_cases hany : m.any (fun p => p.1 = k) = true
  · rw [if_pos hany]
    have hmem : k ∈ m.map Prod.fst := (alist_any_iff_mem_keys m k).mp hany
    obtain ⟨r, hr⟩ :=
      Option.isSome_iff_exists.mp ((alistFind_isSome_iff m k).mpr hmem)
    exact alistFind_update_self v hr
  · rw [if_neg hany]
    have hnone : alistFind m k = none := by
      rw [alistFind_eq_none_iff]
      exact fun hk => hany ((alist_any_iff_mem_keys m k).mpr hk)
    rw [alistFind_append_of_none _ _ hnone, alistFind_cons, if_pos rfl]

lemma alistFind_insert_ne {k' k : String} (m : List (String × α)) (v : α)
    (h : k' ≠ k) :
    alistFind (alistInsert m k v) k' = alistFind m k' := by
  unfold alistInsert
  by_cases hany : m.any (fun p => p.1 = k) = true
  · rw [if_pos hany]; exact alistFind_update_ne m v h
  · rw [if_neg hany]
    cases hf : alistFind m k' with
    | some v' => exact alistFind_append_of_some _ hf
    | none =>
      rw [alistFind_append_of_none _ _ hf, alistFind_cons,
        if_neg (show ¬ ((k, v) : String × α).1 = k' from fun hc => h hc.symm)]
      rfl

end AListLemmas

section StringLemmas

lemma dropWhile_idem (p : Char → Bool) (l : List Char) :
    (l.dropWhile p).dropWhile p = l.dropWhile p := by
  induction l with
  | nil => rfl
  | cons a rest ih =>
    rw [List.dropWhile_cons]
    by_cases h : p a = true
    · rw [if_pos h, ih]
    · rw [if_neg h, List.dropWhile_cons, if_neg h]

lemma rstripS_idem (s : String) : rstripS (rstripS s) = rstripS s := by
  unfold rstripS
  refine congrArg String.mk ?_
  rw [show (String.mk ((s.data.reverse.dropWhile (fun c => c = 's')).reverse)).data
      = (s.data.reverse.dropWhile (fun c => c = 's')).reverse from rfl,
    List.reverse_reverse, dropWhile_idem]

end StringLemmas

section MatchLemmas

lemma matches_transfer (r0 : OntologyTerm) (i s : String)
    (hm : TermMatchesP r0 i)
    (his : lowerStr i = lowerStr s ∨ lowerStr i = rstripS (lowerStr s)) :
    TermMatchesP r0 s := by
  unfold TermMatchesP at hm ⊢
  cases his with
  | inl h1 =>
    rcases hm with hm | hm | ⟨j, hj, hc⟩
    · exact Or.inl (h1.symm.trans hm)
    · exact Or.inr (Or.inl ((congrArg rstripS h1).symm.trans hm))
    · refine Or.inr (Or.inr ⟨j, hj, ?_⟩)
      cases hc with
      | inl hcl => exact Or.inl (hcl.trans h1)
      | inr hcr => exact Or.inr (hcr.trans (congrArg rstripS h1))
  | inr h2 =>
    have hstrip : rstripS (lowerStr i) = rstripS (lowerStr s) := by
      rw [h2, rstripS_idem]
    rcases hm with hm | hm | ⟨j, hj, hc⟩
    · exact Or.inr (Or.inl (h2.symm.trans hm))
    · exact Or.inr (Or.inl (hstrip.symm.trans hm))
    · refine Or.inr (Or.inr ⟨j, hj, ?_⟩)
      cases hc with
      | inl hcl => exact Or.inr (hcl.trans h2)
      | inr hcr => exact Or.inr (hcr.trans hstrip)

lemma termMatchesP_congr (r0 r : OntologyTerm) (hname : r.name = r0.name)
    (added : List String) (hsyn : r.synonyms = r0.synonyms ++ added)
    (hadded : ∀ L ∈ added, TermMatchesP r0 L) (s : String) :
    TermMatchesP r s ↔ TermMatchesP r0 s := by
  unfold TermMatchesP
  rw [hname, hsyn]
  constructor
  · rintro (h | h | ⟨i, hi, hc⟩)
    · exact Or.inl h
    · exact Or.inr (Or.inl h)
    · rcases List.mem_append.mp hi with hi0 | hiA
      · exact Or.inr (Or.inr ⟨i, hi0, hc⟩)
      · exact matches_transfer r0 i s (hadded i hiA) hc
  · rintro (h | h | ⟨i, hi, hc⟩)
    · exact Or.inl h
    · exact Or.inr (Or.inl h)
    · exact Or.inr (Or.inr ⟨i, List.mem_append.mpr (Or.inl hi), hc⟩)

end MatchLemmas

section AddSynonymLemmas

lemma add_synonym_name (t : OntologyTerm) (s : String) :
    (add_synonym t s).name = t.name := by
  by_cases h : s ∈ t.synonyms <;> simp [add_synonym, h]

lemma add_synonym_oid (t : OntologyTerm) (s : String) :
    (add_synonym t s).ontology_id = t.ontology_id := by
  by_cases h : s ∈ t.synonyms <;> simp [add_synonym, h]

lemma add_synonym_desc (t : OntologyTerm) (s : String) :
    (add_synonym t s).description = t.description := by
  by_cases h : s ∈ t.synonyms <;> simp [add_synonym, h]

lemma mem_add_synonym (t : OntologyTerm) (s : String) :
    s ∈ (add_synonym t s).synonyms := by
  by_cases h : s ∈ t.synonyms <;> simp [add_synonym, h]

lemma add_synonym_of_mem {t : OntologyTerm} {s : String}
    (h : s ∈ t.synonyms) : add_synonym t s = t := by
  simp [add_synonym, h]

lemma add_synonym_mem_of_mem {t : OntologyTerm} {x : String} (s : String)
    (h : x ∈ t.synonyms) : x ∈ (add_synonym t s).synonyms := by
  by_cases hs : s ∈ t.synonyms <;> simp [add_synonym, hs, h]

lemma add_synonym_append (t : OntologyTerm) (s : String) :
    ∃ added, (add_synonym t s).synonyms = t.synonyms ++ added ∧
      ∀ L ∈ added, L = s := by
  by_cases h : s ∈ t.synonyms
  · exact ⟨[], by simp [add_synonym, h], by simp⟩
  · exact ⟨[s], by simp [add_synonym, h], by simp⟩

lemma add_synonym_count {t : OntologyTerm} {s : String}
    (h : t.synonyms.count s ≤ 1) : (add_synonym t s).synonyms.count s = 1 := by
  by_cases hs : s ∈ t.synonyms
  · rw [add_synonym_of_mem hs]
    exact le_antisymm h (List.count_pos_iff.mpr hs)
  · have hzero : t.synonyms.count s = 0 := List.count_eq_zero.mpr hs
    simp [add_synonym, hs, List.count_append, hzero]

end AddSynonymLemmas

section ProcessRowLemmas

lemma processRow_eq_find {d : Dict} {row : ExternalRecord} {rec : OntologyTerm}
    (hfind : alistFind d row.ontology_id = some rec) :
    processRow d row =
      (if lowerStr row.label = lowerStr rec.name then
        .ok (d, .canonical row.ontology_id)
      else if rstripS (lowerStr row.label) = lowerStr rec.name then
        .ok (alistUpdate d row.ontology_id (add_synonym rec row.label),
             .canonical row.ontology_id)
      else if ∃ i ∈ rec.synonyms,
          lowerStr i = lowerStr row.label ∨
          lowerStr i = rstripS (lowerStr row.label) then
        .ok (alistUpdate d row.ontology_id (add_synonym rec row.label),
             .canonical row.ontology_id)
      else
        .ok (d, .created { name := row.label,
                           ontology_id := some row.ontology_id,
                           description := row.description, synonyms := [] })) := by
  unfold processRow
  rw [hfind]

lemma processRow_eq_none {d : Dict} {row : ExternalRecord}
    (hfind : alistFind d row.ontology_id = none) :
    processRow d row = .error (.keyError row.ontology_id) := by
  unfold processRow
  rw [hfind]

lemma processRow_exact {d : Dict} {row : ExternalRecord} {rec : OntologyTerm}
    (hfind : alistFind d row.ontology_id = some rec)
    (h1 : lowerStr row.label = lowerStr rec.name) :
    processRow d row = .ok (d, .canonical row.ontology_id) := by
  rw [processRow_eq_find hfind, if_pos h1]

lemma processRow_attach {d : Dict} {row : ExternalRecord} {rec : OntologyTerm}
    (hfind : alistFind d row.ontology_id = some rec)
    (h1 : ¬ lowerStr row.label = lowerStr rec.name)
    (hm : TermMatchesP rec row.label) :
    processRow d row =
      .ok (alistUpdate d row.ontology_id (add_synonym rec row.label),
           .canonical row.ontology_id) := by
  rw [processRow_eq_find hfind, if_neg h1]
  rcases hm with hm1 | hm2 | hm3
  · exact absurd hm1 h1
  · rw [if_pos hm2]
  · by_cases h2 : rstripS (lowerStr row.label) = lowerStr rec.name
    · rw [if_pos h2]
    · rw [if_neg h2, if_pos hm3]

lemma processRow_create {d : Dict} {row : ExternalRecord} {rec : OntologyTerm}
    (hfind : alistFind d row.ontology_id = some rec)
    (hm : ¬ TermMatchesP rec row.label) :
    processRow d row =
      .ok (d, .created { name := row.label, ontology_id := some row.ontology_id,
                         description := row.description, synonyms := [] }) := by
  rw [processRow_eq_find hfind,
    if_neg (fun hc => hm (Or.inl hc)),
    if_neg (fun hc => hm (Or.inr (Or.inl hc))),
    if_neg (fun hc => hm (Or.inr (Or.inr hc)))]

lemma processRow_inv {d d' : Dict} {row : ExternalRecord} {e : Entry}
    (h : processRow d row = .ok (d', e)) :
    ∃ rec, alistFind d row.ontology_id = some rec ∧
      ((lowerStr row.label = lowerStr rec.name ∧
          d' = d ∧ e = .canonical row.ontology_id) ∨
       ((¬ lowerStr row.label = lowerStr rec.name) ∧ TermMatchesP rec row.label ∧
          d' = alistUpdate d row.ontology_id (add_synonym rec row.label) ∧
          e = .canonical row.ontology_id) ∨
       ((¬ TermMatchesP rec row.label) ∧ d' = d ∧
          e = .created { name := row.label, ontology_id := some row.ontology_id,
                         description := row.description, synonyms := [] })) := by
  cases hfind : alistFind d row.ontology_id with
  | none => rw [processRow_eq_none hfind] at h; cases h
  | some rec =>
    refine ⟨rec, rfl, ?_⟩
    by_cases h1 : lowerStr row.label = lowerStr rec.name
    · rw [processRow_exact hfind h1] at h
      injection h with hp
      obtain ⟨hd, he⟩ := Prod.mk.inj hp
      exact Or.inl ⟨h1, hd.symm, he.symm⟩
    · by_cases hm : TermMatchesP rec row.label
      · rw [processRow_attach hfind h1 hm] at h
        injection h with hp
        obtain ⟨hd, he⟩ := Prod.mk.inj hp
        exact Or.inr (Or.inl ⟨h1, hm, hd.symm, he.symm⟩)
      · rw [processRow_create hfind hm] at h
        injection h with hp
        obtain ⟨hd, he⟩ := Prod.mk.inj hp
        exact Or.inr (Or.inr ⟨hm, hd.symm, he.symm⟩)

lemma processRow_syngrow {d d' : Dict} {row : ExternalRecord} {e : Entry}
    (h : processRow d row = .ok (d', e)) : SynGrow d d' := by
  obtain ⟨rec, hfind, hcase⟩ := processRow_inv h
  have hrefl : SynGrow d d := by
    refine ⟨rfl, fun k r1 r2 h1 h2 => ?_⟩
    rw [h1] at h2
    injection h2 with h2
    subst h2
    exact ⟨rfl, rfl, rfl, fun s hs => hs⟩
  rcases hcase with ⟨_, hd, _⟩ | ⟨_, _, hd, _⟩ | ⟨_, hd, _⟩
  · subst hd; exact hrefl
  · subst hd
    refine ⟨(alistUpdate_keys d row.ontology_id _).symm, fun k r1 r2 h1 h2 => ?_⟩
    by_cases hk : k = row.ontology_id
    · subst hk
      rw [hfind] at h1
      injection h1 with h1
      subst h1
      rw [alistFind_update_self _ hfind] at h2
      injection h2 with h2
      subst h2
      exact ⟨(add_synonym_name _ _).symm, (add_synonym_oid _ _).symm,
        (add_synonym_desc _ _).symm, fun s hs => add_synonym_mem_of_mem _ hs⟩
    · rw [alistFind_update_ne d _ hk] at h2
      rw [h1] at h2
      injection h2 with h2
      subst h2
      exact ⟨rfl, rfl, rfl, fun s hs => hs⟩
  · subst hd; exact hrefl

lemma processRow_dictLE {d0 d d' : Dict} {row : ExternalRecord} {e : Entry}
    (h0 : DictLE d0 d) (h : processRow d row = .ok (d', e)) : DictLE d0 d' := by
  obtain ⟨rec, hfind, hcase⟩ := processRow_inv h
  rcases hcase with ⟨_, hd, _⟩ | ⟨_, hm, hd, _⟩ | ⟨_, hd, _⟩
  · subst hd; exact h0
  · subst hd
    refine ⟨h0.1.trans (alistUpdate_keys d row.ontology_id _).symm,
      fun k r0 r h0k hk => ?_⟩
    by_cases hkeq : k = row.ontology_id
    · subst hkeq
      rw [alistFind_update_self _ hfind] at hk
      injection hk with hk
      subst hk
      obtain ⟨hn, ho, hdesc, added, hadd, hmatch⟩ := h0.2 _ r0 rec h0k hfind
      obtain ⟨added', hadd', hlab⟩ := add_synonym_append rec row.label
      have hmlab : TermMatchesP r0 row.label :=
        (termMatchesP_congr r0 rec hn added hadd hmatch row.label).mp hm
      refine ⟨(add_synonym_name _ _).trans hn, (add_synonym_oid _ _).trans ho,
        (add_synonym_desc _ _).trans hdesc,
        added ++ added', by rw [hadd', hadd, List.append_assoc], ?_⟩
      intro L hL
      rcases List.mem_append.mp hL with hL | hL
      · exact hmatch L hL
      · rw [hlab L hL]; exact hmlab
    · rw [alistFind_update_ne d _ hkeq] at hk
      exact h0.2 k r0 r h0k hk
  · subst hd; exact h0

end ProcessRowLemmas

section LoopLemmas

lemma synGrow_trans {d1 d2 d3 : Dict} (h12 : SynGrow d1 d2)
    (h23 : SynGrow d2 d3) : SynGrow d1 d3 := by
  obtain ⟨hk12, hr12⟩ := h12
  obtain ⟨hk23, hr23⟩ := h23
  refine ⟨hk12.trans hk23, fun k r1 r3 h1 h3 => ?_⟩
  have hmem : k ∈ d2.map Prod.fst := by
    rw [← hk12]
    exact (alistFind_isSome_iff d1 k).mp (by rw [h1]; rfl)
  obtain ⟨r2, h2⟩ :=
    Option.isSome_iff_exists.mp ((alistFind_isSome_iff d2 k).mpr hmem)
  obtain ⟨hn12, ho12, hd12, hs12⟩ := hr12 k r1 r2 h1 h2
  obtain ⟨hn23, ho23, hd23, hs23⟩ := hr23 k r2 r3 h2 h3
  exact ⟨hn12.trans hn23, ho12.trans ho23, hd12.trans hd23,
    fun s hs => hs23 s (hs12 s hs)⟩

lemma runRows_syngrow :
    ∀ (rows : List ExternalRecord) (st st' : ReconcileResult),
      runRows rows st = .ok st' → SynGrow st.store st'.store
  | [], st, st', h => by
    injection h with h
    subst h
    exact ⟨rfl, fun k r1 r2 h1 h2 => by
      rw [h1] at h2
      injection h2 with h2
      subst h2
      exact ⟨rfl, rfl, rfl, fun s hs => hs⟩⟩
  | row :: rest, st, st', h => by
    unfold runRows at h
    cases hp : processRow st.store row with
    | error e => rw [hp] at h; cases h
    | ok pr =>
      obtain ⟨dd, entry⟩ := pr
      rw [hp] at h
      exact synGrow_trans (processRow_syngrow hp) (runRows_syngrow rest _ st' h)

lemma runRows_dictLE {d0 : Dict} :
    ∀ (rows : List ExternalRecord) (st st' : ReconcileResult),
      runRows rows st = .ok st' → DictLE d0 st.store → DictLE d0 st'.store
  | [], st, st', h, hLE => by
    injection h with h
    subst h
    exact hLE
  | row :: rest, st, st', h, hLE => by
    unfold runRows at h
    cases hp : processRow st.store row with
    | error e => rw [hp] at h; cases h
    | ok pr =>
      obtain ⟨dd, entry⟩ := pr
      rw [hp] at h
      exact runRows_dictLE rest _ st' h (processRow_dictLE hLE hp)

lemma runRows_saves :
    ∀ (rows : List ExternalRecord) (st st' : ReconcileResult),
      runRows rows st = .ok st' → st'.saves = st.saves
  | [], st, st', h => by
    injection h with h
    subst h
    rfl
  | row :: rest, st, st', h => by
    unfold runRows at h
    cases hp : processRow st.store row with
    | error e => rw [hp] at h; cases h
    | ok pr =>
      obtain ⟨dd, entry⟩ := pr
      rw [hp] at h
      have := runRows_saves rest
        { store := dd, names := alistInsert st.names row.label entry,
          saves := st.saves } st' h
      exact this

lemma runRows_names_nodup :
    ∀ (rows : List ExternalRecord) (st st' : ReconcileResult),
      runRows rows st = .ok st' → (st.names.map Prod.fst).Nodup →
      (st'.names.map Prod.fst).Nodup
  | [], st, st', h, hnd => by
    injection h with h
    subst h
    exact hnd
  | row :: rest, st, st', h, hnd => by
    unfold runRows at h
    cases hp : processRow st.store row with
    | error e => rw [hp] at h; cases h
    | ok pr =>
      obtain ⟨dd, entry⟩ := pr
      rw [hp] at h
      exact runRows_names_nodup rest _ st' h
        (alistInsert_keys_nodup row.label entry hnd)

lemma runRows_append_inv {ys : List ExternalRecord} :
    ∀ (xs : List ExternalRecord) (st st'' : ReconcileResult),
      runRows (xs ++ ys) st = .ok st'' →
      ∃ st', runRows xs st = .ok st' ∧ runRows ys st' = .ok st''
  | [], st, st'', h => ⟨st, rfl, h⟩
  | row :: rest, st, st'', h => by
    rw [List.cons_append] at h
    unfold runRows at h
    cases hp : processRow st.store row with
    | error e => rw [hp] at h; cases h
    | ok pr =>
      obtain ⟨dd, entry⟩ := pr
      rw [hp] at h
      obtain ⟨st', h1, h2⟩ := runRows_append_inv rest _ st'' h
      refine ⟨st', ?_, h2⟩
      unfold runRows
      rw [hp]
      exact h1

lemma runRows_error_of_missing :
    ∀ (rows : List ExternalRecord) (st : ReconcileResult)
      (r : ExternalRecord), r ∈ rows →
      alistFind st.store r.ontology_id = none →
      ∃ e, runRows rows st = .error e
  | [], _, _, hr, _ => absurd hr (List.not_mem_nil _)
  | row :: rest, st, r, hr, hnone => by
    unfold runRows
    cases hp : processRow st.store row with
    | error e => exact ⟨e, rfl⟩
    | ok pr =>
      obtain ⟨dd, entry⟩ := pr
      cases List.mem_cons.mp hr with
      | inl heq =>
        subst heq
        rw [processRow_eq_none hnone] at hp
        cases hp
      | inr hmem =>
        have hkeys : st.store.map Prod.fst = dd.map Prod.fst :=
          (processRow_syngrow hp).1
        have hnone' : alistFind dd r.ontology_id = none := by
          rw [alistFind_eq_none_iff] at hnone ⊢
          rw [← hkeys]
          exact hnone
        obtain ⟨e, he⟩ := runRows_error_of_missing rest
          { store := dd, names := alistInsert st.names row.label entry,
            saves := st.saves } r hmem hnone'
        exact ⟨e, he⟩

lemma runUnmapped_store (fetch : String → OntologyTerm) :
    ∀ (l : List String) (st : ReconcileResult),
      (runUnmapped fetch l st).store = st.store
  | [], _ => rfl
  | name :: rest, st => runUnmapped_store fetch rest
      { store := st.store
        names := alistInsert st.names name (.created (unmappedTerm fetch name))
        saves := st.saves ++ [unmappedTerm fetch name] }

lemma runUnmapped_saves (fetch : String → OntologyTerm) :
    ∀ (l : List String) (st : ReconcileResult),
      (runUnmapped fetch l st).saves = st.saves ++ l.map (unmappedTerm fetch)
  | [], st => by simp [runUnmapped]
  | name :: rest, st => by
    rw [runUnmapped, runUnmapped_saves fetch rest]
    simp

lemma runUnmapped_lookup_not_mem (fetch : String → OntologyTerm)
    {name : String} :
    ∀ (l : List String) (st : ReconcileResult), name ∉ l →
      alistFind (runUnmapped fetch l st).names name = alistFind st.names name
  | [], _, _ => rfl
  | n :: rest, st, hnot => by
    have hne : name ≠ n := fun hc => hnot (hc ▸ List.mem_cons_self n rest)
    have hrest : name ∉ rest := fun hc => hnot (List.mem_cons_of_mem n hc)
    rw [runUnmapped, runUnmapped_lookup_not_mem fetch rest _ hrest]
    exact alistFind_insert_ne st.names _ hne

lemma runUnmapped_lookup_mem (fetch : String → OntologyTerm) {name : String} :
    ∀ (l : List String) (st : ReconcileResult), name ∈ l →
      alistFind (runUnmapped fetch l st).names name =
        some (.created (unmappedTerm fetch name))
  | [], _, hmem => absurd hmem (List.not_mem_nil _)
  | n :: rest, st, hmem => by
    by_cases hrest : name ∈ rest
    · rw [runUnmapped]
      exact runUnmapped_lookup_mem fetch rest _ hrest
    · have hne : name = n := by
        cases List.mem_cons.mp hmem with
        | inl h => exact h
        | inr h => exact absurd h hrest
      subst hne
      rw [runUnmapped, runUnmapped_lookup_not_mem fetch rest _ hrest]
      exact alistFind_insert_self st.names name _

end LoopLemmas

section IdempotenceLemmas

lemma dictLE_refl (d : Dict) : DictLE d d := by
  refine ⟨rfl, fun k r0 r h0 h => ?_⟩
  rw [h0] at h
  injection h with h
  subst h
  exact ⟨rfl, rfl, rfl, [], (List.append_nil _).symm, by simp⟩

lemma synGrow_refl (d : Dict) : SynGrow d d := by
  refine ⟨rfl, fun k r1 r2 h1 h2 => ?_⟩
  rw [h1] at h2
  injection h2 with h2
  subst h2
  exact ⟨rfl, rfl, rfl, fun s hs => hs⟩

lemma step2_eq {d0 d dF d' : Dict} {row : ExternalRecord} {e : Entry}
    (hN : (d0.map Prod.fst).Nodup)
    (hd : DictLE d0 d) (hdF : DictLE d0 dF)
    (hstep : processRow d row = .ok (d', e))
    (hgrow : SynGrow d' dF) :
    processRow dF row = .ok (dF, e) := by
  obtain ⟨rec, hfind, hcase⟩ := processRow_inv hstep
  have hmem0 : row.ontology_id ∈ d0.map Prod.fst := by
    rw [hd.1]
    exact (alistFind_isSome_iff d row.ontology_id).mp (by rw [hfind]; rfl)
  obtain ⟨r0, h0⟩ := Option.isSome_iff_exists.mp
    ((alistFind_isSome_iff d0 row.ontology_id).mpr hmem0)
  have hmemF : row.ontology_id ∈ dF.map Prod.fst := by
    rw [← hdF.1]; exact hmem0
  obtain ⟨rF, hF⟩ := Option.isSome_iff_exists.mp
    ((alistFind_isSome_iff dF row.ontology_id).mpr hmemF)
  obtain ⟨hn_d, _, _, added_d, hadd_d, hm_d⟩ := hd.2 _ r0 rec h0 hfind
  obtain ⟨hn_F, _, _, added_F, hadd_F, hm_F⟩ := hdF.2 _ r0 rF h0 hF
  have hcongr_d := termMatchesP_congr r0 rec hn_d added_d hadd_d hm_d
  have hcongr_F := termMatchesP_congr r0 rF hn_F added_F hadd_F hm_F
  have hnodupF : (dF.map Prod.fst).Nodup := by rw [← hdF.1]; exact hN
  rcases hcase with ⟨h1, hdd, he⟩ | ⟨h1, hm, hdd, he⟩ | ⟨hm, hdd, he⟩
  · subst he
    have h1F : lowerStr row.label = lowerStr rF.name := by
      rw [hn_F, ← hn_d]; exact h1
    exact processRow_exact hF h1F
  · subst he
    have h1F : ¬ lowerStr row.label = lowerStr rF.name := by
      rw [hn_F, ← hn_d]; exact h1
    have hmF : TermMatchesP rF row.label :=
      (hcongr_F row.label).mpr ((hcongr_d row.label).mp hm)
    have hstep2 := processRow_attach hF h1F hmF
    have hd' : alistFind d' row.ontology_id =
        some (add_synonym rec row.label) := by
      rw [hdd]; exact alistFind_update_self _ hfind
    have hsub := (hgrow.2 _ _ rF hd' hF).2.2.2
    have hlabmem : row.label ∈ rF.synonyms :=
      hsub row.label (mem_add_synonym rec row.label)
    rw [add_synonym_of_mem hlabmem, alistUpdate_self hnodupF hF] at hstep2
    exact hstep2
  · subst he
    have hmF : ¬ TermMatchesP rF row.label :=
      fun hc => hm ((hcongr_d row.label).mpr ((hcongr_F row.label).mp hc))
    exact processRow_create hF hmF

lemma runRows_again {d0 dF : Dict}
    (hN : (d0.map Prod.fst).Nodup) (hdF : DictLE d0 dF) :
    ∀ (rows : List ExternalRecord) (st stF : ReconcileResult),
      runRows rows st = .ok stF → DictLE d0 st.store →
      SynGrow stF.store dF →
      runRows rows { store := dF, names := st.names, saves := st.saves } =
        .ok { store := dF, names := stF.names, saves := stF.saves }
  | [], st, stF, h, _, _ => by
    injection h with h
    subst h
    rfl
  | row :: rest, st, stF, h, hLE, hg => by
    unfold runRows at h
    cases hp : processRow st.store row with
    | error e => rw [hp] at h; cases h
    | ok pr =>
      obtain ⟨dd, entry⟩ := pr
      rw [hp] at h
      have hgdd := runRows_syngrow rest
        { store := dd, names := alistInsert st.names row.label entry,
          saves := st.saves } stF h
      have hgrow_dd : SynGrow dd dF := synGrow_trans hgdd hg
      have hstep2 := step2_eq hN hLE hdF hp hgrow_dd
      unfold runRows
      rw [hstep2]
      have hrec := runRows_again hN hdF rest
        { store := dd, names := alistInsert st.names row.label entry,
          saves := st.saves } stF h (processRow_dictLE hLE hp) hg
      exact hrec

end IdempotenceLemmas

section WFLemmas

lemma processRow_wf {d d' : Dict} {row : ExternalRecord} {e : Entry}
    (hwf : StoreWF d) (h : processRow d row = .ok (d', e)) : StoreWF d' := by
  obtain ⟨rec, hfind, hcase⟩ := processRow_inv h
  rcases hcase with ⟨_, hdd, _⟩ | ⟨_, _, hdd, _⟩ | ⟨_, hdd, _⟩
  · subst hdd; exact hwf
  · subst hdd
    intro p hp
    obtain ⟨q, hq, hpq⟩ := List.mem_map.mp hp
    by_cases hk : q.1 = row.ontology_id
    · rw [if_pos hk] at hpq
      subst hpq
      have hrec : rec.ontology_id = some row.ontology_id :=
        hwf (row.ontology_id, rec) (alistFind_mem hfind)
      rw [show ((row.ontology_id, add_synonym rec row.label) :
          String × OntologyTerm).2 = add_synonym rec row.label from rfl,
        add_synonym_oid]
      exact hrec
    · rw [if_neg hk] at hpq
      subst hpq
      exact hwf q hq
  · subst hdd; exact hwf

lemma runRows_wf :
    ∀ (rows : List ExternalRecord) (st st' : ReconcileResult),
      runRows rows st = .ok st' → StoreWF st.store → StoreWF st'.store
  | [], st, st', h, hwf => by
    injection h with h
    subst h
    exact hwf
  | row :: rest, st, st', h, hwf => by
    unfold runRows at h
    cases hp : processRow st.store row with
    | error e => rw [hp] at h; cases h
    | ok pr =>
      obtain ⟨dd, entry⟩ := pr
      rw [hp] at h
      exact runRows_wf rest _ st' h (processRow_wf hwf hp)

end WFLemmas

/-- Claim C1: the spec demands a failure with AmbiguousMatch whenever one
external label would bind to two different canonical terms, and forbids
silently picking one.  Evaluating the embedded loop on such a batch shows
the code has no such failure at all: the label "Xs" first binds to record
A through suffix stripping (attaching "Xs" as a synonym of A) and then to
record B through an exact match, and the run returns ok with "Xs" mapped
to the last-processed record B, the earlier binding silently discarded. -/
theorem c1_eval :
    reconcile
      [{ label := "Xs", ontology_id := "A", description := none },
       { label := "Xs", ontology_id := "B", description := none }] []
      trivialFetch
      [("A", { name := "x", ontology_id := some "A",
               description := none, synonyms := [] }),
       ("B", { name := "xs", ontology_id := some "B",
               description := none, synonyms := [] })] =
    .ok { store := [("A", { name := "x", ontology_id := some "A",
                            description := none, synonyms := ["Xs"] }),
                    ("B", { name := "xs", ontology_id := some "B",
                            description := none, synonyms := [] })],
          names := [("Xs", .canonical "B")],
          saves := [] } := by rfl

/-- Counterexample to claim C2 as stated: an ExternalRecord whose
identifier is absent from the canonical lookup does make reconcile fail
(the Python dict access raises KeyError); it does not fall through to the
fuzzy-search or standalone-creation path. -/
theorem c2_cex :
    reconcile [{ label := "Y", ontology_id := "ZZ", description := none }]
      [] trivialFetch [] = .error (.keyError "ZZ") := by rfl

/-- Claim C2 (amended): records with no identifier are handled by the
separate unmapped-terms path, but a record carrying an identifier that
does not resolve in the canonical lookup aborts the whole reconciliation
with a KeyError. -/
theorem c2_amended (d : Dict) (rows : List ExternalRecord)
    (unames : List String) (fetch : String → OntologyTerm)
    (r : ExternalRecord) (hr : r ∈ rows)
    (hnone : alistFind d r.ontology_id = none) :
    ∃ e, reconcile rows unames fetch d = .error e := by
  obtain ⟨e, he⟩ := runRows_error_of_missing rows
    { store := d, names := [], saves := [] } r hr hnone
  refine ⟨e, ?_⟩
  unfold reconcile
  rw [he]

/-- Witness for C2 (amended) at a concrete unresolvable identifier. -/
theorem c2_amended_witness :
    ∃ e, reconcile
      [{ label := "Y", ontology_id := "ZZ", description := none }]
      [] trivialFetch [] = .error e :=
  c2_amended []
    [{ label := "Y", ontology_id := "ZZ", description := none }] []
    trivialFetch { label := "Y", ontology_id := "ZZ", description := none }
    (List.mem_singleton.mpr rfl) rfl

/-- Claim C3: when the label differs from the canonical name
case-insensitively but its suffix-stripped lowercase form equals the
lowercase canonical name, the loop attaches the original label as a
synonym of the canonical record (append-only, present exactly once
afterwards, other fields untouched) and maps the label to that record. -/
theorem c3_strip_synonym (d : Dict) (row : ExternalRecord)
    (rec : OntologyTerm)
    (hfind : alistFind d row.ontology_id = some rec)
    (hne : ¬ lowerStr row.label = lowerStr rec.name)
    (hstrip : rstripS (lowerStr row.label) = lowerStr rec.name)
    (hdup : rec.synonyms.count row.label ≤ 1) :
    processRow d row =
      .ok (alistUpdate d row.ontology_id (add_synonym rec row.label),
           .canonical row.ontology_id) ∧
    row.label ∈ (add_synonym rec row.label).synonyms ∧
    (add_synonym rec row.label).synonyms.count row.label = 1 ∧
    (add_synonym rec row.label).name = rec.name ∧
    (add_synonym rec row.label).ontology_id = rec.ontology_id :=
  ⟨processRow_attach hfind hne (Or.inr (Or.inl hstrip)),
   mem_add_synonym _ _, add_synonym_count hdup,
   add_synonym_name _ _, add_synonym_oid _ _⟩

/-- Witness for C3 at the spec scenario, together with the evaluated
scenario itself: both labels map to the same canonical term and its
synonyms hold "T cells" exactly once. -/
theorem c3_witness :
    (reconcile tCellsScenarioRows [] trivialFetch tCellsScenarioDict =
      .ok tCellsScenarioResult) ∧
    (processRow tCellsScenarioDict
        { label := "T cells", ontology_id := "CL:0000084",
          description := none } =
      .ok (alistUpdate tCellsScenarioDict "CL:0000084"
            (add_synonym
              { name := "T cell", ontology_id := some "CL:0000084",
                description := none, synonyms := [] } "T cells"),
           .canonical "CL:0000084") ∧
     "T cells" ∈ (add_synonym
        { name := "T cell", ontology_id := some "CL:0000084",
          description := none, synonyms := [] } "T cells").synonyms ∧
     (add_synonym
        { name := "T cell", ontology_id := some "CL:0000084",
          description := none, synonyms := [] } "T cells").synonyms.count
          "T cells" = 1 ∧
     (add_synonym
        { name := "T cell", ontology_id := some "CL:0000084",
          description := none, synonyms := [] } "T cells").name =
        ({ name := "T cell", ontology_id := some "CL:0000084",
           description := none, synonyms := [] } : OntologyTerm).name ∧
     (add_synonym
        { name := "T cell", ontology_id := some "CL:0000084",
          description := none, synonyms := [] } "T cells").ontology_id =
        ({ name := "T cell", ontology_id := some "CL:0000084",
           description := none, synonyms := [] } : OntologyTerm).ontology_id) :=
  ⟨by rfl,
   c3_strip_synonym tCellsScenarioDict
     { label := "T cells", ontology_id := "CL:0000084", description := none }
     { name := "T cell", ontology_id := some "CL:0000084",
       description := none, synonyms := [] }
     rfl (by decide) (by decide) (by decide)⟩

/-- Claim C4: when the label fails both the exact and the
suffix-stripped name comparison but the label or its stripped form
case-insensitively matches an existing synonym of the canonical record,
the loop attaches the original label as a synonym of that record and maps
the label to it. -/
theorem c4_synonym_attach (d : Dict) (row : ExternalRecord)
    (rec : OntologyTerm)
    (hfind : alistFind d row.ontology_id = some rec)
    (hne1 : ¬ lowerStr row.label = lowerStr rec.name)
    (_hne2 : ¬ rstripS (lowerStr row.label) = lowerStr rec.name)
    (hsyn : ∃ i ∈ rec.synonyms,
      lowerStr i = lowerStr row.label ∨
      lowerStr i = rstripS (lowerStr row.label)) :
    processRow d row =
      .ok (alistUpdate d row.ontology_id (add_synonym rec row.label),
           .canonical row.ontology_id) ∧
    row.label ∈ (add_synonym rec row.label).synonyms :=
  ⟨processRow_attach hfind hne1 (Or.inr (Or.inr hsyn)),
   mem_add_synonym _ _⟩

/-- Witness for C4: the label "foos" fails both name comparisons against
the record named "x" but its stripped form matches the synonym "Foo"
case-insensitively, so it is attached as a synonym. -/
theorem c4_witness :
    processRow
      [("A", { name := "x", ontology_id := some "A",
               description := none, synonyms := ["Foo"] })]
      { label := "foos", ontology_id := "A", description := none } =
      .ok (alistUpdate
            [("A", { name := "x", ontology_id := some "A",
                     description := none, synonyms := ["Foo"] })] "A"
            (add_synonym
              { name := "x", ontology_id := some "A",
                description := none, synonyms := ["Foo"] } "foos"),
           .canonical "A") ∧
    "foos" ∈ (add_synonym
      { name := "x", ontology_id := some "A",
        description := none, synonyms := ["Foo"] } "foos").synonyms :=
  c4_synonym_attach
    [("A", { name := "x", ontology_id := some "A",
             description := none, synonyms := ["Foo"] })]
    { label := "foos", ontology_id := "A", description := none }
    { name := "x", ontology_id := some "A",
      description := none, synonyms := ["Foo"] }
    rfl (by decide) (by decide) (by decide)

/-- Claim C5: when the label equals the canonical name
case-insensitively, the loop maps it to the canonical record as is: the
store (and with it every field of the canonical record) is returned
unchanged and no synonym is added. -/
theorem c5_exact_unchanged (d : Dict) (row : ExternalRecord)
    (rec : OntologyTerm)
    (hfind : alistFind d row.ontology_id = some rec)
    (hname : lowerStr row.label = lowerStr rec.name) :
    processRow d row = .ok (d, .canonical row.ontology_id) :=
  processRow_exact hfind hname

/-- Witness for C5: the label "t CELL" matches the canonical name
"T cell" case-insensitively and the store comes back untouched. -/
theorem c5_witness :
    processRow tCellsScenarioDict
      { label := "t CELL", ontology_id := "CL:0000084",
        description := none } =
      .ok (tCellsScenarioDict, .canonical "CL:0000084") :=
  c5_exact_unchanged tCellsScenarioDict
    { label := "t CELL", ontology_id := "CL:0000084", description := none }
    { name := "T cell", ontology_id := some "CL:0000084",
      description := none, synonyms := [] }
    rfl (by decide)

/-- Claim C6: an external label with no resolvable identifier is never
dropped: every name fed to the unmapped-terms loop ends up in the result,
and when the fuzzy-search decision does not accept a candidate (in the
notebook, every name other than "T cells") the entry is a freshly created
standalone term whose name is the label and whose ontology id is null. -/
theorem c6_unmapped_created (rows : List ExternalRecord)
    (unames : List String) (fetch : String → OntologyTerm) (d : Dict)
    (res : ReconcileResult) (name : String)
    (h : reconcile rows unames fetch d = .ok res) (hmem : name ∈ unames) :
    alistFind res.names name = some (.created (unmappedTerm fetch name)) ∧
    (name ≠ "T cells" →
      alistFind res.names name =
        some (.created { name := name, ontology_id := none,
                         description := none, synonyms := [] })) := by
  unfold reconcile at h
  cases hr : runRows rows { store := d, names := [], saves := [] } with
  | error e => rw [hr] at h; cases h
  | ok st =>
    rw [hr] at h
    injection h with h
    subst h
    have hlook := runUnmapped_lookup_mem fetch unames st hmem
    refine ⟨hlook, fun hne => ?_⟩
    rw [hlook]
    unfold unmappedTerm
    rw [if_neg hne]

/-- Witness for C6 at the spec scenario: the unmapped label
"B-cell lineage" yields a standalone term with no ontology id. -/
theorem c6_witness :
    alistFind
      [("B-cell lineage",
        Entry.created { name := "B-cell lineage", ontology_id := none,
                        description := none, synonyms := [] })]
      "B-cell lineage" =
      some (Entry.created { name := "B-cell lineage", ontology_id := none,
                            description := none, synonyms := [] }) :=
  (c6_unmapped_created [] ["B-cell lineage"] trivialFetch []
    { store := [],
      names := [("B-cell lineage",
        Entry.created { name := "B-cell lineage", ontology_id := none,
                        description := none, synonyms := [] })],
      saves := [{ name := "B-cell lineage", ontology_id := none,
                  description := none, synonyms := [] }] }
    "B-cell lineage" (by rfl) (by decide)).2 (by decide)

/-- Counterexample to claim C7 as stated: reconciliation is supposed to
have no side effects before the caller commits, but running the embedded
unmapped-terms loop on one name already emits a save event (the notebook
calls record.save() inside that loop). -/
theorem c7_cex :
    reconcile [] ["B-cell lineage"] trivialFetch [] =
      .ok { store := [],
            names := [("B-cell lineage",
              Entry.created { name := "B-cell lineage", ontology_id := none,
                              description := none, synonyms := [] })],
            saves := [{ name := "B-cell lineage", ontology_id := none,
                        description := none, synonyms := [] }] } ∧
    [({ name := "B-cell lineage", ontology_id := none, description := none,
        synonyms := [] } : OntologyTerm)] ≠ ([] : List OntologyTerm) :=
  ⟨by rfl, by decide⟩

/-- Claim C7 (amended): the identifier-based records_names loop performs
no saves at all, while the unmapped-terms loop saves each record to the
external store as it is created, one save per unmapped name and in input
order, before any caller commit. -/
theorem c7_saves_amended (rows : List ExternalRecord)
    (unames : List String) (fetch : String → OntologyTerm) (d : Dict)
    (res : ReconcileResult)
    (h : reconcile rows unames fetch d = .ok res) :
    res.saves = unames.map (unmappedTerm fetch) := by
  unfold reconcile at h
  cases hr : runRows rows { store := d, names := [], saves := [] } with
  | error e => rw [hr] at h; cases h
  | ok st =>
    rw [hr] at h
    injection h with h
    subst h
    have hs : st.saves = [] := runRows_saves rows _ st hr
    rw [runUnmapped_saves, hs, List.nil_append]

/-- Witness for C7 (amended) at one identifier row plus one unmapped
name: exactly the unmapped record is saved. -/
theorem c7_saves_witness :
    ({ store := [("CL:0000084",
         { name := "T cell", ontology_id := some "CL:0000084",
           description := none, synonyms := [] })],
       names := [("T cell", Entry.canonical "CL:0000084"),
                 ("B-cell lineage",
                  Entry.created { name := "B-cell lineage",
                                  ontology_id := none, description := none,
                                  synonyms := [] })],
       saves := [{ name := "B-cell lineage", ontology_id := none,
                   description := none, synonyms := [] }] } :
      ReconcileResult).saves =
      ["B-cell lineage"].map (unmappedTerm trivialFetch) :=
  c7_saves_amended
    [{ label := "T cell", ontology_id := "CL:0000084", description := none }]
    ["B-cell lineage"] trivialFetch tCellsScenarioDict
    { store := [("CL:0000084",
        { name := "T cell", ontology_id := some "CL:0000084",
          description := none, synonyms := [] })],
      names := [("T cell", Entry.canonical "CL:0000084"),
                ("B-cell lineage",
                 Entry.created { name := "B-cell lineage",
                                 ontology_id := none, description := none,
                                 synonyms := [] })],
      saves := [{ name := "B-cell lineage", ontology_id := none,
                  description := none, synonyms := [] }] }
    (by rfl)

/-- Claim C8: reconcile is idempotent.  Re-running the loop over the same
rows and unmapped names against the canonical store as the first run left
it (the shared mutable Python records) reproduces exactly the same
ReconciliationResult; in particular the second run adds no further
synonyms, because add_synonym is append-only without duplicates and every
label the first run attached already matched its record. -/
theorem c8_idempotent (d : Dict) (rows : List ExternalRecord)
    (unames : List String) (fetch : String → OntologyTerm)
    (res : ReconcileResult)
    (hN : (d.map Prod.fst).Nodup)
    (h : reconcile rows unames fetch d = .ok res) :
    reconcile rows unames fetch res.store = .ok res := by
  unfold reconcile at h ⊢
  cases hr : runRows rows { store := d, names := [], saves := [] } with
  | error e => rw [hr] at h; cases h
  | ok st =>
    rw [hr] at h
    injection h with h
    subst h
    have hstore : (runUnmapped fetch unames st).store = st.store :=
      runUnmapped_store fetch unames st
    rw [hstore]
    have hLE : DictLE d st.store :=
      runRows_dictLE rows _ st hr (dictLE_refl d)
    have hagain : runRows rows
        { store := st.store, names := [], saves := [] } = .ok st := by
      have h2 := runRows_again hN hLE rows
        { store := d, names := [], saves := [] } st hr (dictLE_refl d)
        (synGrow_refl st.store)
      exact h2
    rw [hagain]

/-- Witness for C8 at the spec scenario: running reconcile again on the
store produced by the first run returns the same result. -/
theorem c8_witness :
    reconcile tCellsScenarioRows [] trivialFetch
      tCellsScenarioResult.store = .ok tCellsScenarioResult :=
  c8_idempotent tCellsScenarioDict tCellsScenarioRows [] trivialFetch
    tCellsScenarioResult (by decide) (by rfl)

/-- Counterexample to claim C9 as stated: when a label with a resolvable
identifier fails every name and synonym comparison, the loop creates a
new record carrying the same ontology id as the fetched canonical record,
so the result holds two distinct terms with equal ontology id. -/
theorem c9_cex :
    reconcile
      [{ label := "X", ontology_id := "CL:1", description := none },
       { label := "T cell", ontology_id := "CL:1", description := none }]
      [] trivialFetch
      [("CL:1", { name := "T cell", ontology_id := some "CL:1",
                  description := none, synonyms := [] })] =
      .ok { store := [("CL:1",
              { name := "T cell", ontology_id := some "CL:1",
                description := none, synonyms := [] })],
            names := [("X", Entry.created
                { name := "X", ontology_id := some "CL:1",
                  description := none, synonyms := [] }),
              ("T cell", Entry.canonical "CL:1")],
            saves := [] } ∧
    resolveEntry
      [("CL:1", { name := "T cell", ontology_id := some "CL:1",
                  description := none, synonyms := [] })]
      (Entry.created { name := "X", ontology_id := some "CL:1",
                       description := none, synonyms := [] }) =
      some { name := "X", ontology_id := some "CL:1",
             description := none, synonyms := [] } ∧
    resolveEntry
      [("CL:1", { name := "T cell", ontology_id := some "CL:1",
                  description := none, synonyms := [] })]
      (Entry.canonical "CL:1") =
      some { name := "T cell", ontology_id := some "CL:1",
             description := none, synonyms := [] } ∧
    ({ name := "X", ontology_id := some "CL:1", description := none,
       synonyms := [] } : OntologyTerm) ≠
      { name := "T cell", ontology_id := some "CL:1", description := none,
        synonyms := [] } ∧
    ({ name := "X", ontology_id := some "CL:1", description := none,
       synonyms := [] } : OntologyTerm).ontology_id =
      ({ name := "T cell", ontology_id := some "CL:1", description := none,
         synonyms := [] } : OntologyTerm).ontology_id :=
  ⟨by rfl, by rfl, by rfl, by decide, by rfl⟩

/-- Claim C9 (amended): reconciliation keeps the canonical store
well-formed (every record sits under its own ontology id), so two
canonical references in the result that resolve to terms with the same
ontology id resolve to the same term; uniqueness can only break between a
fetched canonical term and a newly created record, which deliberately
copies the ontology id of the row it came from. -/
theorem c9_unique_amended (d : Dict) (rows : List ExternalRecord)
    (unames : List String) (fetch : String → OntologyTerm)
    (res : ReconcileResult) (hwf : StoreWF d)
    (h : reconcile rows unames fetch d = .ok res) :
    StoreWF res.store ∧
    ∀ l1 l2 o1 o2 t1 t2,
      (l1, Entry.canonical o1) ∈ res.names →
      (l2, Entry.canonical o2) ∈ res.names →
      alistFind res.store o1 = some t1 →
      alistFind res.store o2 = some t2 →
      t1.ontology_id = t2.ontology_id → t1 = t2 := by
  have hwf' : StoreWF res.store := by
    unfold reconcile at h
    cases hr : runRows rows { store := d, names := [], saves := [] } with
    | error e => rw [hr] at h; cases h
    | ok st =>
      rw [hr] at h
      injection h with h
      subst h
      rw [runUnmapped_store]
      exact runRows_wf rows _ st hr hwf
  refine ⟨hwf', fun l1 l2 o1 o2 t1 t2 _ _ hf1 hf2 heq => ?_⟩
  have h1 : t1.ontology_id = some o1 := hwf' _ (alistFind_mem hf1)
  have h2 : t2.ontology_id = some o2 := hwf' _ (alistFind_mem hf2)
  have ho : o1 = o2 := by
    rw [h1, h2] at heq
    injection heq
  subst ho
  rw [hf1] at hf2
  injection hf2

/-- Witness for C9 (amended) at the counterexample input: the canonical
reference of the label "T cell" resolves uniquely. -/
theorem c9_witness :
    ({ name := "T cell", ontology_id := some "CL:1", description := none,
       synonyms := [] } : OntologyTerm) =
      { name := "T cell", ontology_id := some "CL:1", description := none,
        synonyms := [] } :=
  (c9_unique_amended
    [("CL:1", { name := "T cell", ontology_id := some "CL:1",
                description := none, synonyms := [] })]
    [{ label := "X", ontology_id := "CL:1", description := none },
     { label := "T cell", ontology_id := "CL:1", description := none }]
    [] trivialFetch
    { store := [("CL:1",
        { name := "T cell", ontology_id := some "CL:1",
          description := none, synonyms := [] })],
      names := [("X", Entry.created
          { name := "X", ontology_id := some "CL:1",
            description := none, synonyms := [] }),
        ("T cell", Entry.canonical "CL:1")],
      saves := [] }
    (by intro p hp; rw [List.mem_singleton] at hp; subst hp; rfl)
    (by rfl)).2
    "T cell" "T cell" "CL:1" "CL:1"
    { name := "T cell", ontology_id := some "CL:1", description := none,
      synonyms := [] }
    { name := "T cell", ontology_id := some "CL:1", description := none,
      synonyms := [] }
    (by decide) (by decide) (by rfl) (by rfl) (by rfl)

/-- Claim C10 (implicit): when the input rows repeat a label, the result
dict keeps exactly one entry for that label, namely the outcome of the
last such row processed against the store state reached before it; the
run raises no error for the duplication and earlier outcomes are
silently overwritten. -/
theorem c10_last_wins (d : Dict) (rows : List ExternalRecord)
    (r : ExternalRecord) (fetch : String → OntologyTerm)
    (res : ReconcileResult)
    (h : reconcile (rows ++ [r]) [] fetch d = .ok res) :
    (res.names.map Prod.fst).Nodup ∧
    ∃ st' d' e,
      runRows rows { store := d, names := [], saves := [] } = .ok st' ∧
      processRow st'.store r = .ok (d', e) ∧
      alistFind res.names r.label = some e := by
  unfold reconcile at h
  cases hr : runRows (rows ++ [r])
      { store := d, names := [], saves := [] } with
  | error e => rw [hr] at h; cases h
  | ok st =>
    rw [hr] at h
    injection h with h
    subst h
    obtain ⟨st', h1, h2⟩ := runRows_append_inv rows _ st hr
    cases hp : processRow st'.store r with
    | error e =>
      unfold runRows at h2
      rw [hp] at h2
      cases h2
    | ok pr =>
      obtain ⟨d', e⟩ := pr
      unfold runRows at h2
      rw [hp] at h2
      injection h2 with h2
      subst h2
      refine ⟨?_, st', d', e, h1, hp, ?_⟩
      · exact runRows_names_nodup (rows ++ [r])
          { store := d, names := [], saves := [] } _ hr (by simp)
      · exact alistFind_insert_self st'.names r.label e

/-- Witness for C10: the rows repeat the label "L" with identifiers A and
B; the final entry is the record created for the second row, silently
overwriting the canonical match of the first, and the run returns ok. -/
theorem c10_witness :
    (([("L",
        Entry.created
          { name := "L", ontology_id := some "B",
            description := none, synonyms := [] })] :
        List (String × Entry)).map Prod.fst).Nodup ∧
    ∃ st' d' e,
      runRows [{ label := "L", ontology_id := "A", description := none }]
        { store :=
            [("A",
              { name := "L", ontology_id := some "A",
                description := none, synonyms := [] }),
             ("B",
              { name := "M", ontology_id := some "B",
                description := none, synonyms := [] })],
          names := [], saves := [] } = .ok st' ∧
      processRow st'.store
        { label := "L", ontology_id := "B", description := none } =
        .ok (d', e) ∧
      alistFind
        [("L",
          Entry.created
            { name := "L", ontology_id := some "B",
              description := none, synonyms := [] })] "L" = some e :=
  c10_last_wins
    [("A",
      { name := "L", ontology_id := some "A",
        description := none, synonyms := [] }),
     ("B",
      { name := "M", ontology_id := some "B",
        description := none, synonyms := [] })]
    [{ label := "L", ontology_id := "A", description := none }]
    { label := "L", ontology_id := "B", description := none }
    trivialFetch
    { store :=
        [("A",
          { name := "L", ontology_id := some "A",
            description := none, synonyms := [] }),
         ("B",
          { name := "M", ontology_id := some "B",
            description := none, synonyms := [] })],
      names :=
        [("L",
          Entry.created
            { name := "L", ontology_id := some "B",
              description := none, synonyms := [] })],
      saves := [] }
    (by rfl)

end Recon
